import Mathlib

/-!
Verification of the `dspc` progress-counter library.

The development shallowly embeds the library's core (the `Progress` counter
store from the final iteration of the source, together with the helpers in
`util.go`) as pure Lean functions over an explicit store state, and proves the
specified properties about them.

Conventions of the embedding:
* Go `int64` values are modelled as `Int` together with explicit wrapping
  (`wrap64`) applied wherever the source performs 64-bit arithmetic.
* The Go map `map[string]*int64` is modelled as an association list from keys
  to slot identifiers, and the heap of `*int64` cells as a list of values
  indexed by slot id.  Pointers to counters are slot ids; `new(int64)`
  allocates a fresh slot holding 0.
* Go string comparison (byte-wise lexicographic; identical to code-point
  lexicographic order for valid UTF-8) is modelled by `strLt` below, which is
  executable and kernel-reducible.
* Loops are embedded with an explicit fuel argument large enough to cover the
  loop's proven iteration bound, so that every definition evaluates by `decide`
  or `rfl` on concrete inputs.
-/

namespace Dspc

/-- Go compares strings byte-wise lexicographically, which for valid UTF-8
agrees with code-point-wise lexicographic order on the character lists. -/
def lexLt : List Char → List Char → Bool
  | [], [] => false
  | [], _ :: _ => true
  | _ :: _, [] => false
  | a :: as, b :: bs =>
    if a.toNat < b.toNat then true
    else if b.toNat < a.toNat then false
    else lexLt as bs

/-- Model of Go's `<` on `string` (used by `cmp.Less` / `slices.BinarySearch`
/ `slices.Sorted` at type `string`). -/
def strLt (a b : String) : Bool := lexLt a.data b.data

theorem lexLt_asymm : ∀ {a b : List Char}, lexLt a b = true → lexLt b a = false
  | [], [], h => by simp [lexLt] at h
  | [], _ :: _, _ => by simp [lexLt]
  | _ :: _, [], h => by simp [lexLt] at h
  | a :: as, b :: bs, h => by
    simp only [lexLt] at h ⊢
    by_cases h1 : a.toNat < b.toNat
    · simp [h1, Nat.lt_asymm h1]
    · by_cases h2 : b.toNat < a.toNat
      · simp [h1, h2] at h
      · simp only [h1, if_false, h2, if_false] at h ⊢
        simp [lexLt_asymm h]

theorem lexLt_trans : ∀ {a b c : List Char},
    lexLt a b = true → lexLt b c = true → lexLt a c = true
  | [], _, _ :: _, _, _ => by simp [lexLt]
  | [], _ :: _, [], _, h2 => by simp [lexLt] at h2
  | [], [], [], h1, _ => by simp [lexLt] at h1
  | _ :: _, [], _, h1, _ => by simp [lexLt] at h1
  | _ :: _, _ :: _, [], _, h2 => by simp [lexLt] at h2
  | a :: as, b :: bs, c :: cs, h1, h2 => by
    simp only [lexLt] at h1 h2 ⊢
    by_cases hab : a.toNat < b.toNat
    · by_cases hbc : b.toNat < c.toNat
      · simp [Nat.lt_trans hab hbc]
      · by_cases hcb : c.toNat < b.toNat
        · simp [hab, hbc, hcb] at h2
        · have : b.toNat = c.toNat := Nat.le_antisymm (Nat.le_of_not_lt hcb) (Nat.le_of_not_lt hbc)
          simp [this ▸ hab]
    · by_cases hba : b.toNat < a.toNat
      · simp [hab, hba] at h1
      · have hEq : a.toNat = b.toNat := Nat.le_antisymm (Nat.le_of_not_lt hba) (Nat.le_of_not_lt hab)
        by_cases hbc : b.toNat < c.toNat
        · simp [hEq ▸ hbc]
        · by_cases hcb : c.toNat < b.toNat
          · simp [hbc, hcb] at h2
          · simp only [hab, if_false, hba, if_false] at h1
            simp only [hbc, if_false, hcb, if_false] at h2
            have hEq2 : a.toNat = c.toNat := hEq.trans
              (Nat.le_antisymm (Nat.le_of_not_lt hcb) (Nat.le_of_not_lt hbc))
            simp [hEq2, lexLt_trans h1 h2, Nat.lt_irrefl]

theorem lexLt_connex : ∀ {a b : List Char},
    lexLt a b = false → lexLt b a = false → a = b
  | [], [], _, _ => rfl
  | [], _ :: _, h1, _ => by simp [lexLt] at h1
  | _ :: _, [], _, h2 => by simp [lexLt] at h2
  | a :: as, b :: bs, h1, h2 => by
    simp only [lexLt] at h1 h2
    by_cases hab : a.toNat < b.toNat
    · simp [hab] at h1
    · by_cases hba : b.toNat < a.toNat
      · simp [hab, hba] at h1 h2
      · simp only [hab, if_false, hba, if_false] at h1 h2
        have hEq : a.toNat = b.toNat := Nat.le_antisymm (Nat.le_of_not_lt hba) (Nat.le_of_not_lt hab)
        have hc : a = b := Char.ext (UInt32.ext hEq)
        exact hc ▸ congrArg (a :: ·) (lexLt_connex h1 h2)

theorem strLt_asymm {a b : String} (h : strLt a b = true) : strLt b a = false :=
  lexLt_asymm h

theorem strLt_trans {a b c : String} (h1 : strLt a b = true) (h2 : strLt b c = true) :
    strLt a c = true :=
  lexLt_trans h1 h2

theorem strLt_connex {a b : String} (h1 : strLt a b = false) (h2 : strLt b a = false) :
    a = b :=
  String.ext (lexLt_connex h1 h2)

theorem strLt_irrefl (a : String) : strLt a a = false := by
  by_cases h : strLt a a = true
  · exact (strLt_asymm h) ▸ rfl
  · simpa using h

/-- The strict-order relation used throughout: `a` is lexicographically before `b`. -/
def strLtP (a b : String) : Prop := strLt a b = true

instance : DecidableRel strLtP := fun a b => instDecidableEqBool (strLt a b) true

/-- Non-strict companion order (`a` does not come after `b`). -/
def strLeP (a b : String) : Prop := strLt b a = false

instance : DecidableRel strLeP := fun a b => instDecidableEqBool (strLt b a) false

instance : IsTrans String strLeP where
  trans a b c h1 h2 := by
    unfold strLeP at *
    by_cases hca : strLt c a = true
    · by_cases hcb : strLt c b = true
      · simp [hcb] at h2
      · by_cases hbc : strLt b c = true
        · have := strLt_trans hbc hca
          simp [this] at h1
        · have : b = c := strLt_connex (by simpa using hbc) (by simpa using hcb)
          subst this
          simp [hca] at h1
    · simpa using hca

instance : IsTotal String strLeP where
  total a b := by
    unfold strLeP
    by_cases h : strLt b a = true
    · exact Or.inr (strLt_asymm h)
    · exact Or.inl (by simpa using h)

instance : IsAntisymm String strLeP where
  antisymm _ _ h1 h2 := strLt_connex h2 h1

theorem strLtP_le {a b : String} (h : strLtP a b) : strLeP a b :=
  strLt_asymm h

theorem strLeP_not_eq_lt {a b : String} (h : strLeP a b) (hne : a ≠ b) : strLtP a b := by
  unfold strLeP at h
  by_cases hab : strLt a b = true
  · exact hab
  · exact absurd (strLt_connex (by simpa using hab) h) hne

/-! ## The counter store (final iteration of the source)

`map[string]*int64` is modelled as an association list from key to slot id;
the heap of independently mutable `int64` cells is a list of (wrapped) values
indexed by slot id.  `new(int64)` appends a fresh cell holding 0. -/

abbrev SlotId := Nat

structure progressState where
  counters   : List (String × SlotId)
  sortedKeys : List String
deriving Repr, DecidableEq

structure Store where
  state : Option progressState
  slots : List Int
deriving Repr, DecidableEq

/-- Go map lookup `state.counters[key]` (unique keys; `none` models a nil pointer). -/
def lookupKey : List (String × SlotId) → String → Option SlotId
  | [], _ => none
  | (k, c) :: rest, key => if k = key then some c else lookupKey rest key

/-- Wrapping of an integer into signed 64-bit range, modelling Go `int64` overflow. -/
def wrap64 (n : Int) : Int := (n + 2 ^ 63) % 2 ^ 64 - 2 ^ 63

theorem wrap64_eq_self {n : Int} (h1 : -(2 ^ 63) ≤ n) (h2 : n < 2 ^ 63) : wrap64 n = n := by
  unfold wrap64
  omega

theorem wrap64_add_left (a b : Int) : wrap64 (wrap64 a + b) = wrap64 (a + b) := by
  unfold wrap64
  omega

/-- The loop of Go's `slices.BinarySearch` (lower-bound search: `i, j := 0, n;
for i < j { h := (i+j)/2; if x[h] < target { i = h+1 } else { j = h } }`).
The extra fuel argument bounds the number of iterations; `j - i` strictly
decreases every iteration, so any fuel ≥ `j - i` computes the loop's result. -/
def binarySearchGo (s : List String) (target : String) (i j : Nat) : Nat → Nat
  | 0 => i
  | fuel + 1 =>
    if i < j then
      if strLt (s.getD ((i + j) / 2) target) target then
        binarySearchGo s target ((i + j) / 2 + 1) j fuel
      else binarySearchGo s target i ((i + j) / 2) fuel
    else i

/-- The position returned by `slices.BinarySearch(s, v)` (the found-flag is unused
by the caller). -/
def binarySearchPos (s : List String) (target : String) : Nat :=
  binarySearchGo s target 0 s.length s.length

/-- From `util.go`: takes a sorted slice and returns its copy with the new
value inserted at the correct position (`copy(res, s[:pos]); res[pos] = v;
copy(res[pos+1:], s[pos:])`). -/
def cloneSortedSliceAndInsert (s : List String) (v : String) : List String :=
  let pos := binarySearchPos s v
  s.take pos ++ v :: s.drop pos

/-- Sequential embedding of `getOrCreateCounter` (in a single-threaded run the
CAS always succeeds, so the retry loop runs exactly once). -/
def getOrCreateCounter (p : Store) (key : String) : Store × SlotId :=
  match p.state with
  | some state =>
    match lookupKey state.counters key with
    | some counter => (p, counter)
    | none =>
      let newCounter : SlotId := p.slots.length
      let newState : progressState :=
        { counters := state.counters ++ [(key, newCounter)]
          sortedKeys := cloneSortedSliceAndInsert state.sortedKeys key }
      ({ state := some newState, slots := p.slots ++ [0] }, newCounter)
  | none =>
    let newCounter : SlotId := p.slots.length
    ({ state := some { counters := [(key, newCounter)], sortedKeys := [key] },
       slots := p.slots ++ [0] }, newCounter)

/-- Model of `Inc`: get-or-create the counter, then `atomic.AddInt64(c, delta)`. -/
def Inc (p : Store) (key : String) (delta : Int) : Store :=
  let pc := getOrCreateCounter p key
  { pc.1 with slots := pc.1.slots.set pc.2 (wrap64 (pc.1.slots.getD pc.2 0 + delta)) }

/-- Model of `Set`: get-or-create the counter, then `atomic.StoreInt64(c, value)`. -/
def Set (p : Store) (key : String) (value : Int) : Store :=
  let pc := getOrCreateCounter p key
  { pc.1 with slots := pc.1.slots.set pc.2 (wrap64 value) }

/-- Model of `Get`: 0 when the state pointer is nil or the key is absent, otherwise an
atomic load of the counter's cell. -/
def Get (p : Store) (key : String) : Int :=
  match p.state with
  | none => 0
  | some state =>
    match lookupKey state.counters key with
    | none => 0
    | some counter => p.slots.getD counter 0

/-- Model of `All`: walk `sortedKeys`, loading each counter's current value. -/
def All (p : Store) : List (String × Int) :=
  match p.state with
  | none => []
  | some state =>
    state.sortedKeys.map fun key =>
      (key, p.slots.getD ((lookupKey state.counters key).getD 0) 0)

/-- A single mutating API call. -/
inductive Op where
  | inc (key : String) (delta : Int)
  | set (key : String) (value : Int)
deriving Repr, DecidableEq

def applyOp (p : Store) : Op → Store
  | .inc k d => Inc p k d
  | .set k v => Set p k v

/-- The zero `Progress`: nil state pointer, no allocated cells. -/
def emptyProgress : Store := { state := none, slots := [] }

/-- The store after a sequence of `Inc`/`Set` calls on a zero `Progress`. -/
def runOps (ops : List Op) : Store := ops.foldl applyOp emptyProgress

def Op.key : Op → String
  | .inc k _ => k
  | .set k _ => k

/-- The counters of the current state (empty for a nil state pointer). -/
def stateCounters (p : Store) : List (String × SlotId) :=
  match p.state with
  | none => []
  | some state => state.counters

/-- The key set of the current state. -/
def stateKeys (p : Store) : List String := (stateCounters p).map Prod.fst

/-- The sorted key sequence of the current state. -/
def stateSortedKeys (p : Store) : List String :=
  match p.state with
  | none => []
  | some state => state.sortedKeys

/-! ### Lookup lemmas -/

theorem lookupKey_eq_none {m : List (String × SlotId)} {key : String} :
    lookupKey m key = none ↔ key ∉ m.map Prod.fst := by
  induction m with
  | nil => simp [lookupKey]
  | cons e rest ih =>
    obtain ⟨k, c⟩ := e
    by_cases h : k = key
    · subst h
      simp [lookupKey]
    · have h' : ¬key = k := fun hh => h hh.symm
      simp [lookupKey, h, ih, h']

theorem lookupKey_mem {m : List (String × SlotId)} {key : String} {c : SlotId}
    (h : lookupKey m key = some c) : (key, c) ∈ m := by
  induction m with
  | nil => simp [lookupKey] at h
  | cons e rest ih =>
    obtain ⟨k, c'⟩ := e
    by_cases hk : k = key
    · subst hk
      simp [lookupKey] at h
      simp [h]
    · simp [lookupKey, hk] at h
      simp [ih h]

theorem lookupKey_append_self {m : List (String × SlotId)} {key : String} {c : SlotId}
    (h : lookupKey m key = none) : lookupKey (m ++ [(key, c)]) key = some c := by
  induction m with
  | nil => simp [lookupKey]
  | cons e rest ih =>
    obtain ⟨k, c'⟩ := e
    by_cases hk : k = key
    · simp [lookupKey, hk] at h
    · simp [lookupKey, hk] at h ⊢
      exact ih h

theorem lookupKey_append_ne {m : List (String × SlotId)} {key k : String} {c : SlotId}
    (h : k ≠ key) : lookupKey (m ++ [(key, c)]) k = lookupKey m k := by
  have h' : ¬key = k := fun hh => h hh.symm
  induction m with
  | nil => simp [lookupKey, h']
  | cons e rest ih =>
    obtain ⟨k', c'⟩ := e
    by_cases hk : k' = k
    · simp [lookupKey, hk]
    · simp [lookupKey, hk, ih]

theorem lookupKey_snd_inj {m : List (String × SlotId)}
    (hm : (m.map Prod.snd).Nodup) {k1 k2 : String} {c1 c2 : SlotId}
    (h1 : lookupKey m k1 = some c1) (h2 : lookupKey m k2 = some c2)
    (hne : k1 ≠ k2) : c1 ≠ c2 := by
  induction m with
  | nil => simp [lookupKey] at h1
  | cons e rest ih =>
    obtain ⟨k, c⟩ := e
    simp only [List.map_cons, List.nodup_cons] at hm
    by_cases hk1 : k = k1
    · subst hk1
      simp [lookupKey] at h1
      have hk2 : k ≠ k2 := hne
      simp [lookupKey, hk2] at h2
      have : c2 ∈ rest.map Prod.snd :=
        List.mem_map.mpr ⟨(k2, c2), lookupKey_mem h2, rfl⟩
      intro hcc
      exact hm.1 (h1 ▸ hcc ▸ this)
    · by_cases hk2 : k = k2
      · subst hk2
        simp [lookupKey] at h2
        simp [lookupKey, hk1] at h1
        have : c1 ∈ rest.map Prod.snd :=
          List.mem_map.mpr ⟨(k1, c1), lookupKey_mem h1, rfl⟩
        intro hcc
        exact hm.1 (h2 ▸ hcc ▸ this)
      · simp [lookupKey, hk1] at h1
        simp [lookupKey, hk2] at h2
        exact ih hm.2 h1 h2

/-! ### Binary-search and sorted-insert lemmas -/

theorem binarySearchGo_spec (s : List String) (v : String) (hs : s.Pairwise strLtP) :
    ∀ (fuel i j : Nat), j ≤ s.length → j - i ≤ fuel → i ≤ j →
    (∀ t, t < i → strLt (s.getD t v) v = true) →
    (∀ t, j ≤ t → t < s.length → strLt (s.getD t v) v = false) →
    binarySearchGo s v i j fuel ≤ s.length ∧
    (∀ t, t < binarySearchGo s v i j fuel → strLt (s.getD t v) v = true) ∧
    (∀ t, binarySearchGo s v i j fuel ≤ t → t < s.length →
      strLt (s.getD t v) v = false) := by
  have hsorted : ∀ t u, t < s.length → u < s.length → t < u →
      strLt (s.getD t v) (s.getD u v) = true := by
    intro t u ht hu htu
    rw [List.getD_eq_getElem s v ht, List.getD_eq_getElem s v hu]
    exact List.pairwise_iff_getElem.mp hs t u ht hu htu
  intro fuel
  induction fuel with
  | zero =>
    intro i j hj hfuel hij hlo hhi
    refine ⟨le_trans hij hj, hlo, fun t ht htlen => hhi t ?_ htlen⟩
    have ht' : i ≤ t := ht
    omega
  | succ fuel ih =>
    intro i j hj hfuel hij hlo hhi
    have hbody : binarySearchGo s v i j (fuel + 1)
        = if i < j then
            (if strLt (s.getD ((i + j) / 2) v) v then
              binarySearchGo s v ((i + j) / 2 + 1) j fuel
            else binarySearchGo s v i ((i + j) / 2) fuel)
          else i := rfl
    by_cases hlt : i < j
    · have hm1 : i ≤ (i + j) / 2 := by omega
      have hm2 : (i + j) / 2 < j := by omega
      have hmlen : (i + j) / 2 < s.length := lt_of_lt_of_le hm2 hj
      cases hcmp : strLt (s.getD ((i + j) / 2) v) v with
      | true =>
        have hrw : binarySearchGo s v i j (fuel + 1)
            = binarySearchGo s v ((i + j) / 2 + 1) j fuel := by
          rw [hbody, if_pos hlt, if_pos hcmp]
        rw [hrw]
        refine ih ((i + j) / 2 + 1) j hj (by omega) (by omega) ?_ hhi
        intro t ht
        rcases Nat.lt_or_ge t ((i + j) / 2) with htm | htm
        · exact strLt_trans (hsorted t ((i + j) / 2) (by omega) hmlen htm) hcmp
        · have ht' : t = (i + j) / 2 := by omega
          rw [ht']
          exact hcmp
      | false =>
        have hrw : binarySearchGo s v i j (fuel + 1)
            = binarySearchGo s v i ((i + j) / 2) fuel := by
          rw [hbody, if_pos hlt, if_neg (by rw [hcmp]; exact Bool.false_ne_true)]
        rw [hrw]
        refine ih i ((i + j) / 2) (le_of_lt hmlen) (by omega) hm1 hlo ?_
        intro t ht htlen
        rcases Nat.lt_or_ge ((i + j) / 2) t with htm | htm
        · cases hb : strLt (s.getD t v) v with
          | false => rfl
          | true =>
            exact absurd (strLt_trans (hsorted ((i + j) / 2) t hmlen htlen htm) hb)
              (by rw [hcmp]; exact Bool.false_ne_true)
        · have ht' : t = (i + j) / 2 := by omega
          rw [ht']
          exact hcmp
    · have hrw : binarySearchGo s v i j (fuel + 1) = i := by
        rw [hbody, if_neg hlt]
      rw [hrw]
      exact ⟨le_trans hij hj, hlo, fun t ht htlen => hhi t (by omega) htlen⟩

theorem binarySearchPos_spec (s : List String) (v : String) (hs : s.Pairwise strLtP) :
    binarySearchPos s v ≤ s.length ∧
    (∀ t, t < binarySearchPos s v → strLt (s.getD t v) v = true) ∧
    (∀ t, binarySearchPos s v ≤ t → t < s.length → strLt (s.getD t v) v = false) :=
  binarySearchGo_spec s v hs s.length 0 s.length (le_refl _) (by omega) (by omega)
    (fun t ht => absurd ht (Nat.not_lt_zero t))
    (fun t ht htlen => absurd htlen (by omega))

theorem cloneSortedSliceAndInsert_perm (s : List String) (v : String) :
    (cloneSortedSliceAndInsert s v).Perm (v :: s) := by
  unfold cloneSortedSliceAndInsert
  have h := @List.perm_middle _ v (s.take (binarySearchPos s v))
    (s.drop (binarySearchPos s v))
  rwa [List.take_append_drop] at h

theorem cloneSortedSliceAndInsert_sorted (s : List String) (v : String)
    (hs : s.Pairwise strLtP) (hv : v ∉ s) :
    (cloneSortedSliceAndInsert s v).Pairwise strLtP := by
  obtain ⟨hle, hlo, hhi⟩ := binarySearchPos_spec s v hs
  unfold cloneSortedSliceAndInsert
  have htake : ∀ x ∈ s.take (binarySearchPos s v),
      ∃ t, t < binarySearchPos s v ∧ ∃ (ht : t < s.length), s[t] = x := by
    intro x hx
    obtain ⟨n, hn, hnx⟩ := List.mem_iff_getElem.mp hx
    have hn' : n < binarySearchPos s v := by
      have := List.length_take (binarySearchPos s v) s
      omega
    have hnlen : n < s.length := by
      have := List.length_take (binarySearchPos s v) s
      omega
    exact ⟨n, hn', hnlen, by rw [List.getElem_take] at hnx; exact hnx⟩
  have hdrop : ∀ x ∈ s.drop (binarySearchPos s v),
      ∃ t, binarySearchPos s v ≤ t ∧ ∃ (ht : t < s.length), s[t] = x := by
    intro x hx
    obtain ⟨n, hn, hnx⟩ := List.mem_iff_getElem.mp hx
    have hlen := List.length_drop (binarySearchPos s v) s
    refine ⟨binarySearchPos s v + n, by omega, by omega, ?_⟩
    rw [List.getElem_drop s] at hnx
    exact hnx
  have hltv : ∀ x ∈ s.take (binarySearchPos s v), strLtP x v := by
    intro x hx
    obtain ⟨t, ht, htlen, hts⟩ := htake x hx
    have := hlo t ht
    rwa [List.getD_eq_getElem s v htlen, hts] at this
  have hvlt : ∀ x ∈ s.drop (binarySearchPos s v), strLtP v x := by
    intro x hx
    obtain ⟨t, ht, htlen, hts⟩ := hdrop x hx
    have hnot := hhi t ht htlen
    rw [List.getD_eq_getElem s v htlen, hts] at hnot
    have hne : v ≠ x := by
      intro hvx
      exact hv (hvx ▸ List.mem_of_mem_drop hx)
    exact strLeP_not_eq_lt hnot hne
  rw [List.pairwise_append]
  refine ⟨List.Pairwise.sublist (List.take_sublist _ _) hs, ?_, ?_⟩
  · rw [List.pairwise_cons]
    exact ⟨hvlt, List.Pairwise.sublist (List.drop_sublist _ _) hs⟩
  · intro a ha b hb
    rcases List.mem_cons.mp hb with hb | hb
    · exact hb ▸ hltv a ha
    · obtain ⟨t, ht, htlen, hts⟩ := htake a ha
      obtain ⟨u, hu, hulen, hus⟩ := hdrop b hb
      have : strLtP s[t] s[u] :=
        List.pairwise_iff_getElem.mp hs t u htlen hulen (by omega)
      rwa [hts, hus] at this

/-! ### The store invariant -/

/-- Well-formedness of a store: every slot id in the counters map is an
allocated cell, distinct keys own distinct cells, and `sortedKeys` is a
strictly-ascending enumeration of exactly the key set of `counters`. -/
def Inv (p : Store) : Prop :=
  match p.state with
  | none => True
  | some state =>
      (∀ e ∈ state.counters, e.2 < p.slots.length) ∧
      (state.counters.map Prod.snd).Nodup ∧
      state.sortedKeys.Pairwise strLtP ∧
      state.sortedKeys.Perm (state.counters.map Prod.fst)

theorem getD_append_length {l : List Int} {x d : Int} : (l ++ [x]).getD l.length d = x := by
  rw [List.getD_eq_getElem _ _ (by simp)]
  exact List.getElem_concat_length l x l.length rfl (by simp)

theorem getD_append_left {l : List Int} {x d : Int} {n : Nat} (h : n < l.length) :
    (l ++ [x]).getD n d = l.getD n d := by
  rw [List.getD_eq_getElem _ _ (by simp; omega), List.getD_eq_getElem _ _ h]
  exact List.getElem_append_left h

theorem getD_set_self {l : List Int} {n : Nat} {a d : Int} (h : n < l.length) :
    (l.set n a).getD n d = a := by
  rw [List.getD_eq_getElem _ _ (by simpa using h)]
  exact List.getElem_set_self _

theorem getD_set_ne {l : List Int} {n m : Nat} {a d : Int} (h : n ≠ m) :
    (l.set n a).getD m d = l.getD m d := by
  by_cases hm : m < l.length
  · rw [List.getD_eq_getElem _ _ (by simpa using hm), List.getD_eq_getElem _ _ hm]
    exact List.getElem_set_ne h _
  · rw [List.getD_eq_default _ _ (by simp; omega), List.getD_eq_default _ _ (by omega)]

instance decidableInv : (p : Store) → Decidable (Inv p)
  | ⟨none, _⟩ => isTrue trivial
  | ⟨some state, slots⟩ =>
    inferInstanceAs (Decidable ((∀ e ∈ state.counters, e.2 < slots.length) ∧
      (state.counters.map Prod.snd).Nodup ∧
      state.sortedKeys.Pairwise strLtP ∧
      state.sortedKeys.Perm (state.counters.map Prod.fst)))

/-- Unfolded characterization of `Get` through `stateCounters`. -/
theorem Get_eq (p : Store) (k : String) :
    Get p k = (match lookupKey (stateCounters p) k with
      | none => 0
      | some c => p.slots.getD c 0) := by
  rcases p with ⟨state, slots⟩
  rcases state with _ | s
  · simp [Get, stateCounters, lookupKey]
  · simp [Get, stateCounters]

theorem Get_of_lookup {p : Store} {k : String} {c : SlotId}
    (h : lookupKey (stateCounters p) k = some c) : Get p k = p.slots.getD c 0 := by
  rw [Get_eq, h]

theorem Get_of_lookup_none {p : Store} {k : String}
    (h : lookupKey (stateCounters p) k = none) : Get p k = 0 := by
  rw [Get_eq, h]

/-- Overwriting a cell's value does not disturb the invariant (the map
structure is untouched and the heap keeps its size). -/
theorem Inv_set_slot {p : Store} (hp : Inv p) (c : SlotId) (x : Int) :
    Inv { p with slots := p.slots.set c x } := by
  rcases p with ⟨state, slots⟩
  rcases state with _ | s
  · trivial
  · obtain ⟨h1, h2, h3, h4⟩ := hp
    exact ⟨fun e he => by simpa using h1 e he, h2, h3, h4⟩

/-- The full contract of the (sequential) `getOrCreateCounter`: the invariant
is preserved, the key is afterwards mapped to the returned slot, the returned
slot is allocated, no observable counter value changes (a fresh counter starts
at 0, which is also what `Get` reports for an absent key), and the key set
grows by exactly the requested key. -/
theorem getOrCreateCounter_spec (p : Store) (key : String) (hp : Inv p) :
    Inv (getOrCreateCounter p key).1 ∧
    lookupKey (stateCounters (getOrCreateCounter p key).1) key
      = some (getOrCreateCounter p key).2 ∧
    (getOrCreateCounter p key).2 < (getOrCreateCounter p key).1.slots.length ∧
    (∀ k, Get (getOrCreateCounter p key).1 k = Get p k) ∧
    (∀ k, k ∈ stateKeys (getOrCreateCounter p key).1 ↔ k = key ∨ k ∈ stateKeys p) := by
  rcases p with ⟨state, slots⟩
  rcases state with _ | s
  · -- nil state pointer: build the singleton state
    have hres : getOrCreateCounter { state := none, slots := slots } key
        = ({ state := some { counters := [(key, slots.length)], sortedKeys := [key] },
             slots := slots ++ [0] }, slots.length) := rfl
    rw [hres]
    refine ⟨⟨?_, ?_, ?_, ?_⟩, ?_, ?_, ?_, ?_⟩
    · intro e he
      simp at he
      simp [he]
    · simp
    · simp
    · simp
    · simp [stateCounters, lookupKey]
    · simp
    · intro k
      by_cases hk : key = k
      · subst hk
        simp [Get, stateCounters, lookupKey, getD_append_length]
      · simp [Get, stateCounters, lookupKey, hk]
    · intro k
      by_cases hk : k = key
      · simp [stateKeys, stateCounters, hk]
      · have hk' : ¬key = k := fun hh => hk hh.symm
        simp [stateKeys, stateCounters, hk, hk']
  · obtain ⟨h1, h2, h3, h4⟩ := hp
    cases hl : lookupKey s.counters key with
    | some c =>
      have hres : getOrCreateCounter { state := some s, slots := slots } key
          = ({ state := some s, slots := slots }, c) := by
        simp [getOrCreateCounter, hl]
      rw [hres]
      have hmem : (key, c) ∈ s.counters := lookupKey_mem hl
      refine ⟨⟨h1, h2, h3, h4⟩, ?_, ?_, ?_, ?_⟩
      · simpa [stateCounters] using hl
      · simpa using h1 (key, c) hmem
      · intro k
        rfl
      · intro k
        have hkeymem : key ∈ s.counters.map Prod.fst :=
          List.mem_map.mpr ⟨(key, c), hmem, rfl⟩
        simp only [stateKeys, stateCounters]
        constructor
        · intro hm
          exact Or.inr hm
        · rintro (rfl | hm)
          · exact hkeymem
          · exact hm
    | none =>
      have hres : getOrCreateCounter { state := some s, slots := slots } key
          = ({ state := some { counters := s.counters ++ [(key, slots.length)],
                               sortedKeys := cloneSortedSliceAndInsert s.sortedKeys key },
               slots := slots ++ [0] }, slots.length) := by
        simp [getOrCreateCounter, hl]
      rw [hres]
      have hkeynot : key ∉ s.counters.map Prod.fst := lookupKey_eq_none.mp hl
      have hkeysorted : key ∉ s.sortedKeys := fun hm => hkeynot (h4.mem_iff.mp hm)
      have hperm' : (cloneSortedSliceAndInsert s.sortedKeys key).Perm
          ((s.counters ++ [(key, slots.length)]).map Prod.fst) := by
        refine (cloneSortedSliceAndInsert_perm s.sortedKeys key).trans ?_
        rw [List.map_append]
        refine List.Perm.trans ?_ (List.perm_append_singleton _ _).symm
        simpa using List.Perm.cons key h4
      refine ⟨⟨?_, ?_, ?_, hperm'⟩, ?_, ?_, ?_, ?_⟩
      · intro e he
        show e.2 < (slots ++ [0]).length
        have h1' : ∀ e ∈ s.counters, e.2 < slots.length := h1
        simp only [List.mem_append, List.mem_singleton] at he
        rcases he with he | he
        · have := h1' e he
          simp only [List.length_append, List.length_singleton]
          exact Nat.lt_succ_of_lt this
        · subst he
          simp
      · simp only [List.map_append, List.nodup_append]
        refine ⟨h2, List.nodup_singleton _, ?_⟩
        intro x hx
        have h1' : ∀ e ∈ s.counters, e.2 < slots.length := h1
        have : x < slots.length := by
          obtain ⟨e, he, hex⟩ := List.mem_map.mp hx
          simpa [← hex] using h1' e he
        show x ∉ [slots.length]
        simp
        exact Nat.ne_of_lt this
      · exact cloneSortedSliceAndInsert_sorted s.sortedKeys key h3 hkeysorted
      · simpa [stateCounters] using lookupKey_append_self hl
      · simp
      · intro k
        by_cases hk : k = key
        · subst hk
          rw [Get_eq, Get_eq]
          simp only [stateCounters]
          rw [lookupKey_append_self hl, hl]
          exact getD_append_length
        · rw [Get_eq, Get_eq]
          simp only [stateCounters]
          rw [lookupKey_append_ne hk]
          cases hlk : lookupKey s.counters k with
          | none => rfl
          | some c' =>
            have hc' : c' < slots.length := by simpa using h1 (k, c') (lookupKey_mem hlk)
            simpa using getD_append_left hc'
      · intro k
        by_cases hk : k = key
        · simp [stateKeys, stateCounters, hk]
        · have hk' : ¬key = k := fun hh => hk hh.symm
          simp [stateKeys, stateCounters, hk, hk']

theorem stateCounters_set_slots (p : Store) (x : List Int) :
    stateCounters { p with slots := x } = stateCounters p := by
  rcases p with ⟨state, slots⟩
  rcases state with _ | s <;> rfl

theorem stateKeys_set_slots (p : Store) (x : List Int) :
    stateKeys { p with slots := x } = stateKeys p := by
  unfold stateKeys
  rw [stateCounters_set_slots]

theorem Inv_counters_nodup {p : Store} (hp : Inv p) :
    ((stateCounters p).map Prod.snd).Nodup := by
  rcases p with ⟨state, slots⟩
  rcases state with _ | s
  · simp [stateCounters]
  · exact hp.2.1

theorem Inv_counters_bounds {p : Store} (hp : Inv p) :
    ∀ e ∈ stateCounters p, e.2 < p.slots.length := by
  rcases p with ⟨state, slots⟩
  rcases state with _ | s
  · simp [stateCounters]
  · exact hp.1

theorem Inv_sortedKeys_pairwise {p : Store} (hp : Inv p) :
    (stateSortedKeys p).Pairwise strLtP := by
  rcases p with ⟨state, slots⟩
  rcases state with _ | s
  · simp [stateSortedKeys]
  · exact hp.2.2.1

theorem Inv_sortedKeys_perm {p : Store} (hp : Inv p) :
    (stateSortedKeys p).Perm (stateKeys p) := by
  rcases p with ⟨state, slots⟩
  rcases state with _ | s
  · simp [stateSortedKeys, stateKeys, stateCounters]
  · exact hp.2.2.2

/-- Contract of `Inc`: invariant preserved, the named counter is bumped by
`delta` (with 64-bit wrap-around), all other counters keep their value, and
the key set grows by at most the named key. -/
theorem Inc_spec (p : Store) (key : String) (delta : Int) (hp : Inv p) :
    Inv (Inc p key delta) ∧
    Get (Inc p key delta) key = wrap64 (Get p key + delta) ∧
    (∀ k, k ≠ key → Get (Inc p key delta) k = Get p k) ∧
    (∀ k, k ∈ stateKeys (Inc p key delta) ↔ k = key ∨ k ∈ stateKeys p) := by
  obtain ⟨hInv, hlk, hlen, hGet, hKeys⟩ := getOrCreateCounter_spec p key hp
  have hInc : Inc p key delta
      = { (getOrCreateCounter p key).1 with
          slots := (getOrCreateCounter p key).1.slots.set (getOrCreateCounter p key).2
            (wrap64 ((getOrCreateCounter p key).1.slots.getD (getOrCreateCounter p key).2 0
              + delta)) } := rfl
  refine ⟨?_, ?_, ?_, ?_⟩
  · rw [hInc]
    exact Inv_set_slot hInv _ _
  · have h2 : Get (Inc p key delta)
        key = ((getOrCreateCounter p key).1.slots.set (getOrCreateCounter p key).2
          (wrap64 ((getOrCreateCounter p key).1.slots.getD (getOrCreateCounter p key).2 0
            + delta))).getD (getOrCreateCounter p key).2 0 := by
      rw [hInc]
      exact Get_of_lookup (by rw [stateCounters_set_slots]; exact hlk)
    rw [h2, getD_set_self hlen, ← Get_of_lookup hlk, hGet key]
  · intro k hk
    have hne' : ¬key = k := fun hh => hk hh.symm
    rw [← hGet k]
    cases hlk' : lookupKey (stateCounters (getOrCreateCounter p key).1) k with
    | none =>
      have hlkI : lookupKey (stateCounters (Inc p key delta)) k = none := by
        rw [hInc, stateCounters_set_slots]
        exact hlk'
      rw [Get_of_lookup_none hlkI, Get_of_lookup_none hlk']
    | some c' =>
      have hne : (getOrCreateCounter p key).2 ≠ c' :=
        lookupKey_snd_inj (Inv_counters_nodup hInv) hlk hlk' hne'
      have hlkI : lookupKey (stateCounters (Inc p key delta)) k = some c' := by
        rw [hInc, stateCounters_set_slots]
        exact hlk'
      rw [Get_of_lookup hlkI, Get_of_lookup hlk', hInc]
      exact getD_set_ne hne
  · intro k
    rw [hInc, stateKeys_set_slots]
    exact hKeys k

/-- Contract of `Set`: invariant preserved, the named counter afterwards holds
(the 64-bit image of) `value`, all other counters keep their value, and the
key set grows by at most the named key. -/
theorem Set_spec (p : Store) (key : String) (value : Int) (hp : Inv p) :
    Inv (Set p key value) ∧
    Get (Set p key value) key = wrap64 value ∧
    (∀ k, k ≠ key → Get (Set p key value) k = Get p k) ∧
    (∀ k, k ∈ stateKeys (Set p key value) ↔ k = key ∨ k ∈ stateKeys p) := by
  obtain ⟨hInv, hlk, hlen, hGet, hKeys⟩ := getOrCreateCounter_spec p key hp
  have hSet : Set p key value
      = { (getOrCreateCounter p key).1 with
          slots := (getOrCreateCounter p key).1.slots.set (getOrCreateCounter p key).2
            (wrap64 value) } := rfl
  refine ⟨?_, ?_, ?_, ?_⟩
  · rw [hSet]
    exact Inv_set_slot hInv _ _
  · have h2 : Get (Set p key value)
        key = ((getOrCreateCounter p key).1.slots.set (getOrCreateCounter p key).2
          (wrap64 value)).getD (getOrCreateCounter p key).2 0 := by
      rw [hSet]
      exact Get_of_lookup (by rw [stateCounters_set_slots]; exact hlk)
    rw [h2, getD_set_self hlen]
  · intro k hk
    have hne' : ¬key = k := fun hh => hk hh.symm
    rw [← hGet k]
    cases hlk' : lookupKey (stateCounters (getOrCreateCounter p key).1) k with
    | none =>
      have hlkI : lookupKey (stateCounters (Set p key value)) k = none := by
        rw [hSet, stateCounters_set_slots]
        exact hlk'
      rw [Get_of_lookup_none hlkI, Get_of_lookup_none hlk']
    | some c' =>
      have hne : (getOrCreateCounter p key).2 ≠ c' :=
        lookupKey_snd_inj (Inv_counters_nodup hInv) hlk hlk' hne'
      have hlkI : lookupKey (stateCounters (Set p key value)) k = some c' := by
        rw [hSet, stateCounters_set_slots]
        exact hlk'
      rw [Get_of_lookup hlkI, Get_of_lookup hlk', hSet]
      exact getD_set_ne hne
  · intro k
    rw [hSet, stateKeys_set_slots]
    exact hKeys k

theorem applyOp_spec (p : Store) (op : Op) (hp : Inv p) :
    Inv (applyOp p op) ∧
    (∀ k, k ∈ stateKeys (applyOp p op) ↔ k = op.key ∨ k ∈ stateKeys p) ∧
    (∀ k, k ≠ op.key → Get (applyOp p op) k = Get p k) := by
  cases op with
  | inc k d =>
    obtain ⟨h1, _h2, h3, h4⟩ := Inc_spec p k d hp
    exact ⟨h1, h4, h3⟩
  | set k v =>
    obtain ⟨h1, _h2, h3, h4⟩ := Set_spec p k v hp
    exact ⟨h1, h4, h3⟩

theorem foldl_spec (ops : List Op) : ∀ (p : Store), Inv p →
    Inv (ops.foldl applyOp p) ∧
    (∀ k, k ∈ stateKeys (ops.foldl applyOp p) ↔ k ∈ ops.map Op.key ∨ k ∈ stateKeys p) ∧
    (∀ k, k ∉ ops.map Op.key → Get (ops.foldl applyOp p) k = Get p k) := by
  induction ops with
  | nil =>
    intro p hp
    exact ⟨hp, by simp, by simp⟩
  | cons op rest ih =>
    intro p hp
    obtain ⟨hInv, hKeys, hFrame⟩ := applyOp_spec p op hp
    obtain ⟨hInv', hKeys', hFrame'⟩ := ih (applyOp p op) hInv
    rw [List.foldl_cons]
    refine ⟨hInv', ?_, ?_⟩
    · intro k
      simp only [List.map_cons, List.mem_cons]
      rw [hKeys' k, hKeys k]
      tauto
    · intro k hk
      simp only [List.map_cons, List.mem_cons] at hk
      push_neg at hk
      rw [hFrame' k hk.2, hFrame k hk.1]

/-- Every store reachable by a sequence of `Inc`/`Set` calls satisfies the
invariant; its key set is exactly the set of keys ever passed; and a key never
passed still reads as 0. -/
theorem runOps_spec (ops : List Op) :
    Inv (runOps ops) ∧
    (∀ k, k ∈ stateKeys (runOps ops) ↔ k ∈ ops.map Op.key) ∧
    (∀ k, k ∉ ops.map Op.key → Get (runOps ops) k = 0) := by
  obtain ⟨h1, h2, h3⟩ := foldl_spec ops emptyProgress trivial
  unfold runOps
  refine ⟨h1, fun k => ?_, fun k hk => ?_⟩
  · rw [h2 k]
    simp [stateKeys, stateCounters, emptyProgress]
  · rw [h3 k hk]
    rfl


/-! ### The snapshot iterator -/

/-- The key list of a snapshot equals the state's `sortedKeys`. -/
theorem strLtP_ne {a b : String} (h : strLtP a b) : a ≠ b := by
  intro hEq
  subst hEq
  have h2 := strLt_irrefl a
  unfold strLtP at h
  rw [h] at h2
  exact Bool.noConfusion h2

theorem All_keys (p : Store) : (All p).map Prod.fst = stateSortedKeys p := by
  rcases p with ⟨state, slots⟩
  rcases state with _ | st
  · rfl
  · show (st.sortedKeys.map fun key =>
        (key, slots.getD ((lookupKey st.counters key).getD 0) 0)).map Prod.fst
      = st.sortedKeys
    rw [List.map_map]
    exact List.map_id _

/-- The body of `All`'s iterator run against an early-stopping consumer:
keys are visited in `sortedKeys` order, each visited pair is passed to
`yield`, and the walk returns right after the first pair for which `yield`
answers `false`.  The result collects the pairs the consumer received. -/
def consumeKeys (p : Store) (state : progressState) (yield : String → Int → Bool) :
    List String → List (String × Int)
  | [] => []
  | key :: rest =>
    if yield key (p.slots.getD ((lookupKey state.counters key).getD 0) 0) then
      (key, p.slots.getD ((lookupKey state.counters key).getD 0) 0)
        :: consumeKeys p state yield rest
    else [(key, p.slots.getD ((lookupKey state.counters key).getD 0) 0)]

/-- Running `All` with an arbitrary (possibly early-stopping) consumer. -/
def AllWith (p : Store) (yield : String → Int → Bool) : List (String × Int) :=
  match p.state with
  | none => []
  | some state => consumeKeys p state yield state.sortedKeys

theorem consumeKeys_take (p : Store) (state : progressState)
    (yield : String → Int → Bool) :
    ∀ keys : List String, ∃ n, consumeKeys p state yield keys
      = ((keys.map fun key =>
          (key, p.slots.getD ((lookupKey state.counters key).getD 0) 0)).take n) := by
  intro keys
  induction keys with
  | nil => exact ⟨0, rfl⟩
  | cons key rest ih =>
    obtain ⟨n, hn⟩ := ih
    by_cases hy : yield key (p.slots.getD ((lookupKey state.counters key).getD 0) 0) = true
    · refine ⟨n + 1, ?_⟩
      simp only [consumeKeys, hy, if_true, List.map_cons, List.take_succ_cons]
      rw [hn]
    · refine ⟨1, ?_⟩
      simp only [consumeKeys, List.map_cons, List.take_succ_cons, List.take_zero]
      rw [if_neg hy]

/-- Early stopping yields a prefix (`take`) of the full snapshot. -/
theorem AllWith_take (p : Store) (yield : String → Int → Bool) :
    ∃ n, AllWith p yield = (All p).take n := by
  rcases p with ⟨state, slots⟩
  rcases state with _ | st
  · exact ⟨0, rfl⟩
  · simpa [AllWith, All] using
      consumeKeys_take { state := some st, slots := slots } st yield st.sortedKeys

/-! ## The claims -/

/-- C2: for a key never passed to `Inc` or `Set`, `Get` returns 0 (the
embedding of `Get` is a pure function of the store — the source performs only
atomic loads, so it cannot create the key or change any counter — and the
state argument is left untouched by construction); and after a single
`Inc key d` on such a fresh key, `Get key` returns `d` (for any `int64` value
`d`, i.e. any `d` in signed-64-bit range). -/
theorem claim_C2_get_fresh (ops : List Op) (key : String) (d : Int)
    (hfresh : key ∉ ops.map Op.key)
    (hlo : -(2 ^ 63) ≤ d) (hhi : d < 2 ^ 63) :
    Get (runOps ops) key = 0 ∧
    Get (Inc (runOps ops) key d) key = d := by
  obtain ⟨hInv, _hKeys, hFrame⟩ := runOps_spec ops
  have h0 : Get (runOps ops) key = 0 := hFrame key hfresh
  obtain ⟨_, hGetInc, _, _⟩ := Inc_spec (runOps ops) key d hInv
  refine ⟨h0, ?_⟩
  rw [hGetInc, h0, zero_add]
  exact wrap64_eq_self hlo hhi

theorem claim_C2_get_fresh_witness :
    Get (runOps [Op.inc "a" 1]) "b" = 0 ∧
    Get (Inc (runOps [Op.inc "a" 1]) "b" 5) "b" = 5 :=
  claim_C2_get_fresh [Op.inc "a" 1] "b" 5 (by decide) (by decide) (by decide)

/-- C3: starting from any reachable store, `Set key v` then `Inc key d` then
`Inc key (-e)` leaves the counter at `v + d - e` in wrapping 64-bit
arithmetic; concretely `set("foo",10); inc("foo",5); inc("foo",-7)` gives
`get("foo") = 8`.  (`Inc` creates an absent key at 0 before adding, and `Set`
creates an absent key and overwrites it — both facts are what make the
equation hold from any start state.) -/
theorem claim_C3_set_inc_inc (ops : List Op) (key : String) (v d e : Int) :
    Get (Inc (Inc (Set (runOps ops) key v) key d) key (-e)) key = wrap64 (v + d - e) ∧
    Get (Inc (Inc (Set (runOps []) "foo" 10) "foo" 5) "foo" (-7)) "foo" = 8 := by
  constructor
  · obtain ⟨hInv, _, _⟩ := runOps_spec ops
    obtain ⟨hInv1, hGet1, _, _⟩ := Set_spec (runOps ops) key v hInv
    obtain ⟨hInv2, hGet2, _, _⟩ := Inc_spec (Set (runOps ops) key v) key d hInv1
    obtain ⟨_, hGet3, _, _⟩ := Inc_spec (Inc (Set (runOps ops) key v) key d) key (-e) hInv2
    rw [hGet3, hGet2, hGet1]
    simp only [wrap64]
    omega
  · decide

/-- C4: every reachable (non-nil) state satisfies the `sortedKeys` invariant —
strictly ascending lexicographic order (hence duplicate-free) and exactly the
key set of the counters map — and the state-producing step of
`getOrCreateCounter` preserves the (full) store invariant. -/
theorem claim_C4_sortedKeys_invariant :
    (∀ (p : Store) (key : String), Inv p → Inv (getOrCreateCounter p key).1) ∧
    (∀ ops : List Op,
      (stateSortedKeys (runOps ops)).Pairwise strLtP ∧
      (stateSortedKeys (runOps ops)).Nodup ∧
      (stateSortedKeys (runOps ops)).Perm (stateKeys (runOps ops))) := by
  constructor
  · intro p key hp
    exact (getOrCreateCounter_spec p key hp).1
  · intro ops
    have h := (runOps_spec ops).1
    have hpw := Inv_sortedKeys_pairwise h
    exact ⟨hpw, List.Pairwise.imp (fun hab => strLtP_ne hab) hpw, Inv_sortedKeys_perm h⟩

theorem claim_C4_sortedKeys_invariant_witness :
    Inv (getOrCreateCounter
      { state := some { counters := [("a", 0)], sortedKeys := ["a"] }, slots := [7] } "b").1 ∧
    ((stateSortedKeys (runOps [Op.inc "b" 2, Op.set "a" 3])).Pairwise strLtP ∧
      (stateSortedKeys (runOps [Op.inc "b" 2, Op.set "a" 3])).Nodup ∧
      (stateSortedKeys (runOps [Op.inc "b" 2, Op.set "a" 3])).Perm
        (stateKeys (runOps [Op.inc "b" 2, Op.set "a" 3]))) :=
  ⟨claim_C4_sortedKeys_invariant.1 _ "b" (by decide),
   claim_C4_sortedKeys_invariant.2 _⟩

/-- C5: after any sequence of `Inc`/`Set` calls, the snapshot `All` yields
keys in strictly ascending lexicographic order, without duplicates, and its
key set is exactly the set of names ever passed to `Inc`/`Set`; an
early-stopping consumer receives a prefix (`take n`) of the full sequence. -/
theorem claim_C5_all_ordered (ops : List Op) :
    ((All (runOps ops)).map Prod.fst).Pairwise strLtP ∧
    ((All (runOps ops)).map Prod.fst).Nodup ∧
    (∀ k, k ∈ (All (runOps ops)).map Prod.fst ↔ k ∈ ops.map Op.key) ∧
    (∀ yield, ∃ n, AllWith (runOps ops) yield = (All (runOps ops)).take n) := by
  obtain ⟨hInv, hKeys, _⟩ := runOps_spec ops
  rw [All_keys]
  have hpw := Inv_sortedKeys_pairwise hInv
  refine ⟨hpw, List.Pairwise.imp (fun hab => strLtP_ne hab) hpw, ?_,
    fun yield => AllWith_take (runOps ops) yield⟩
  · intro k
    rw [(Inv_sortedKeys_perm hInv).mem_iff]
    exact hKeys k

/-- Spec-side model of the earlier iteration's `rebuildSortedKeys`
(`s.sortedKeys = slices.Sorted(maps.Keys(s.counters))` in `progress.go`):
fully sort an arbitrary enumeration of the key set (Go map iteration order is
arbitrary; on duplicate-free keys every comparison sort returns the same
list, so the sort is modelled by insertion sort). -/
def rebuildSortedKeys (l : List String) : List String :=
  List.insertionSort strLeP l

/-- C6: on a duplicate-free sorted slice `s` and a key `v` not in `s`, the
optimized `cloneSortedSliceAndInsert` (binary search + single copy) returns
exactly what the earlier iteration's full re-sort returns on any enumeration
`l` of the extended key set. -/
theorem claim_C6_insert_equiv_resort (s : List String) (v : String) (l : List String)
    (hs : s.Pairwise strLtP) (hv : v ∉ s) (hl : l.Perm (v :: s)) :
    rebuildSortedKeys l = cloneSortedSliceAndInsert s v := by
  apply @List.eq_of_perm_of_sorted _ strLeP _ _ _
  · exact (List.perm_insertionSort strLeP l).trans
      (hl.trans (cloneSortedSliceAndInsert_perm s v).symm)
  · exact List.sorted_insertionSort strLeP l
  · exact List.Pairwise.imp strLtP_le (cloneSortedSliceAndInsert_sorted s v hs hv)

theorem claim_C6_insert_equiv_resort_witness :
    rebuildSortedKeys ["foo", "baz", "bar"] = cloneSortedSliceAndInsert ["bar", "foo"] "baz" :=
  claim_C6_insert_equiv_resort ["bar", "foo"] "baz" ["foo", "baz", "bar"]
    (by decide) (by decide) (by decide)


/-! ## The renderer (`prettyPrint` and the `util.go` helpers) -/

/-- The loop of `digitCount`: `for n != 0 { n /= 10; count++ }` with Go's
truncated (`/`) division on `int64`.  The fuel argument bounds the number of
iterations; `n.natAbs` iterations always suffice, since the magnitude strictly
shrinks under division by 10. -/
def digitCountLoop : Nat → Int → Nat → Nat
  | 0, _, count => count
  | fuel + 1, n, count =>
    if n = 0 then count else digitCountLoop fuel (n.tdiv 10) (count + 1)

/-- Model of `digitCount` from `util.go`: 1 for zero, otherwise the number of decimal
digits plus one for the minus sign of a negative number. -/
def digitCount (n : Int) : Nat :=
  if n = 0 then 1 else digitCountLoop n.natAbs n (if n < 0 then 1 else 0)

theorem digitCountLoop_zero (fuel count : Nat) : digitCountLoop fuel 0 count = count := by
  cases fuel with
  | zero => rfl
  | succ fuel => simp [digitCountLoop]

theorem digitCountLoop_spec : ∀ (fuel : Nat) (n : Int) (count : Nat),
    n.natAbs ≤ fuel → n ≠ 0 →
    digitCountLoop fuel n count = count + (Nat.digits 10 n.natAbs).length := by
  intro fuel
  induction fuel with
  | zero =>
    intro n count hle hne
    exact absurd (Int.natAbs_eq_zero.mp (Nat.le_zero.mp hle)) hne
  | succ fuel ih =>
    intro n count hle hne
    have hpos : 0 < n.natAbs := Int.natAbs_pos.mpr hne
    have hstep : digitCountLoop (fuel + 1) n count
        = digitCountLoop fuel (n.tdiv 10) (count + 1) := by
      simp [digitCountLoop, hne]
    have habs : (n.tdiv 10).natAbs = n.natAbs / 10 := Int.natAbs_tdiv n 10
    have hdig : Nat.digits 10 n.natAbs = n.natAbs % 10 :: Nat.digits 10 (n.natAbs / 10) :=
      Nat.digits_def' (by omega) hpos
    by_cases hz : n.tdiv 10 = 0
    · have h10 : n.natAbs / 10 = 0 := by rw [← habs, hz]; rfl
      rw [hstep, hz, digitCountLoop_zero, hdig, h10]
      simp
    · have hrec := ih (n.tdiv 10) (count + 1) (by omega) hz
      rw [hstep, hrec, habs, hdig]
      simp
      omega

/-- The function `digitCount` computes exactly the spec's width: decimal digit count (1
for zero), plus one for the minus sign of a negative value. -/
theorem digitCount_width (n : Int) :
    digitCount n = (if n < 0 then 1 else 0) + max 1 (Nat.digits 10 n.natAbs).length := by
  by_cases h0 : n = 0
  · subst h0
    simp [digitCount]
  · have hpos : 0 < n.natAbs := Int.natAbs_pos.mpr h0
    have hlen : 1 ≤ (Nat.digits 10 n.natAbs).length := by
      rw [Nat.digits_def' (by omega) hpos]
      simp
    unfold digitCount
    rw [if_neg h0, digitCountLoop_spec n.natAbs n _ (le_refl _) h0]
    omega

/-- Model of `WriteByteRepeated`: `WriteByteRepeated c n` appends exactly `n` copies of `c` to the buffer
(the 32-byte chunking in `util.go` only batches the writes). -/
def writeByteRepeated (c : Char) (n : Nat) : String := String.mk (List.replicate n c)

/-- One counter line: two spaces, the key, space padding up to the widest key,
two spaces, space padding up to the widest value, the decimal value
(`strconv.AppendInt` base 10), newline. -/
def counterLine (maxKeySize maxValueSize : Nat) (e : String × Int) : String :=
  "  " ++ e.1 ++ writeByteRepeated ' ' (maxKeySize - e.1.utf8ByteSize)
    ++ "  " ++ writeByteRepeated ' ' (maxValueSize - digitCount e.2)
    ++ toString e.2 ++ "\n"

/-- Widest key length (in bytes) over the snapshot. -/
def maxKeySize (entries : List (String × Int)) : Nat :=
  entries.foldl (fun m e => max m e.1.utf8ByteSize) 0

/-- Widest formatted value width over the snapshot. -/
def maxValueSize (entries : List (String × Int)) : Nat :=
  entries.foldl (fun m e => max m (digitCount e.2)) 0

/-- The counter lines of a render of store `p`. -/
def renderLines (p : Store) : List String :=
  (All p).map (counterLine (maxKeySize (All p)) (maxValueSize (All p)))

/-- The cursor-up suffix `ESC [ <lines+3> A` of an in-place render. -/
def cursorUp (p : Store) : String :=
  "\x1b[" ++ toString ((All p).length + 3) ++ "A"

/-- Blank line, title line, counter lines, blank line. -/
def renderBody (p : Store) (title : String) : String :=
  "\n" ++ title ++ "\n" ++ String.join (renderLines p) ++ "\n"

/-- The byte content of one `prettyPrint` buffer.  Note that the source
writes the clear-to-end-of-screen sequence `ESC[J` unconditionally at the
start of every render; only the cursor-up suffix is guarded by `inPlace`. -/
def prettyPrintBuf (p : Store) (title : String) (inPlace : Bool) : String :=
  "\x1b[J" ++ renderBody p title ++ (if inPlace then cursorUp p else "")

/-- The whole `Progress` struct: the shared store plus the printing scratch
fields (`buf`, `entries`) that are rebuilt on every render. -/
structure Progress where
  store : Store
  buf : String
  entries : List (String × Int)
deriving Repr

/-- Model of `prettyPrint`: rebuild the scratch state from a fresh snapshot, format it,
and flush the buffer to the sink `w` in a single `Write` call.  Besides the
updated struct it returns the list of writes issued to the sink (to state the
single-write property) and the error of that write. -/
def prettyPrint (p : Progress) (w : String → Option String) (title : String)
    (inPlace : Bool) : Progress × List String × Option String :=
  let buf := prettyPrintBuf p.store title inPlace
  ({ p with buf := buf, entries := All p.store }, [buf], w buf)


/-- C7: the formatted width used for column alignment is exactly the spec's
width (decimal digit count, plus one for the minus sign of a negative value;
zero has width 1), each counter line is two spaces, the name space-padded to
the widest name, two spaces, then the value space-padded (right-aligned) to
the widest value — `counterLine` above is that exact byte layout — and on the
snapshot {"bar": 20, "foo": -100, "grault": 0} the counter lines are exactly
the three expected strings. -/
theorem claim_C7_counter_line_format :
    (∀ n : Int, digitCount n
      = (if n < 0 then 1 else 0) + max 1 (Nat.digits 10 n.natAbs).length) ∧
    (∀ p : Store, renderLines p = (All p).map fun e =>
      "  " ++ e.1 ++ writeByteRepeated ' ' (maxKeySize (All p) - e.1.utf8ByteSize)
        ++ "  " ++ writeByteRepeated ' ' (maxValueSize (All p) - digitCount e.2)
        ++ toString e.2 ++ "\n") ∧
    renderLines (runOps [Op.set "bar" 20, Op.set "foo" (-100), Op.set "grault" 0])
      = ["  bar       20\n", "  foo     -100\n", "  grault     0\n"] := by
  refine ⟨digitCount_width, fun p => rfl, by decide⟩

/-- C8 counterexample: the claim says the static (`inPlace = false`) render
omits the clear sequence and contains no ANSI control sequences; but the
render of the empty store with `inPlace = false` starts with `ESC [ J`. -/
theorem claim_C8_counterexample :
    (prettyPrintBuf emptyProgress "Progress:" false).data.take 3
      = ['\x1b', '[', 'J'] := by decide

/-- C8 (amended): the cursor-up suffix `ESC [ <counter lines + 3> A` is
appended exactly when `inPlace` is true — the in-place render is the static
render plus that suffix — but the clear-to-end-of-screen sequence `ESC[J` is
written unconditionally, so even the static report begins with it. -/
theorem claim_C8_ansi_sequences (p : Store) (title : String) :
    prettyPrintBuf p title true
      = prettyPrintBuf p title false ++ ("\x1b[" ++ toString ((All p).length + 3) ++ "A") ∧
    (prettyPrintBuf p title false).data.take 3 = ['\x1b', '[', 'J'] := by
  constructor
  · show "\x1b[J" ++ renderBody p title ++ cursorUp p
      = ("\x1b[J" ++ renderBody p title ++ "")
        ++ ("\x1b[" ++ toString ((All p).length + 3) ++ "A")
    rw [String.append_empty]
    rfl
  · have h : (prettyPrintBuf p title false).data
        = '\x1b' :: '[' :: 'J' :: (renderBody p title).data := by
      show ("\x1b[J" ++ renderBody p title ++ "").data = _
      rw [String.append_empty, String.data_append]
      rfl
    rw [h]
    rfl

/-- C9: `prettyPrint` issues exactly one `Write` to the sink — the whole
buffer in a single call, with no internal retry — and returns precisely that
write's error (`none` on success); in success and failure alike the store
component is untouched: same state pointer, hence same key set, same counter
values and same snapshot. -/
theorem claim_C9_single_write_no_mutation (p : Progress) (w : String → Option String)
    (title : String) (inPlace : Bool) :
    (prettyPrint p w title inPlace).2.1 = [prettyPrintBuf p.store title inPlace] ∧
    (prettyPrint p w title inPlace).2.2 = w (prettyPrintBuf p.store title inPlace) ∧
    ((prettyPrint p w title inPlace).2.2 = none
      ↔ w (prettyPrintBuf p.store title inPlace) = none) ∧
    (prettyPrint p w title inPlace).1.store = p.store ∧
    (∀ k, Get (prettyPrint p w title inPlace).1.store k = Get p.store k) ∧
    All (prettyPrint p w title inPlace).1.store = All p.store :=
  ⟨rfl, rfl, Iff.rfl, rfl, fun _ => rfl, rfl⟩

/-- C10: on the zero `Progress` (nil state pointer): `All` yields nothing,
`Get` of any key is 0, the render buffer is exactly
`ESC[J ++ "\n" ++ title ++ "\n" ++ "\n"` with the suffix `ESC[3A` exactly
when `inPlace` — and none of these operations create a state: the state
pointer is still nil after the render. -/
theorem claim_C10_zero_progress (title k : String) (w : String → Option String) :
    All emptyProgress = [] ∧
    Get emptyProgress k = 0 ∧
    prettyPrintBuf emptyProgress title true
      = "\x1b[J" ++ "\n" ++ title ++ "\n" ++ "\n" ++ "\x1b[3A" ∧
    prettyPrintBuf emptyProgress title false = "\x1b[J" ++ "\n" ++ title ++ "\n" ++ "\n" ∧
    (prettyPrint { store := emptyProgress, buf := "", entries := [] } w title true).1.store.state
      = none ∧
    (prettyPrint { store := emptyProgress, buf := "", entries := [] } w title false).1.store.state
      = none := by
  refine ⟨rfl, rfl, ?_, ?_, rfl, rfl⟩
  · apply String.ext
    show ("\x1b[J" ++ ("\n" ++ title ++ "\n" ++ "" ++ "\n") ++ cursorUp emptyProgress).data = _
    have hcur : cursorUp emptyProgress = "\x1b[3A" := rfl
    rw [hcur]
    simp only [String.data_append, String.append_empty]
    rfl
  · apply String.ext
    show ("\x1b[J" ++ ("\n" ++ title ++ "\n" ++ "" ++ "\n") ++ "").data = _
    simp only [String.data_append, String.append_empty]
    rfl


/-! ## The concurrent machine for `getOrCreateCounter` / `Inc`

To settle the concurrency claim, the lock-free protocol is embedded as an
interleaved transition system.  Each thread runs `Inc(key, 1)` some number of
times; a step of a thread performs one shared-memory access of the Go code
(load of the state pointer, allocation of a fresh cell, the CAS, or the
atomic add), and an execution is a schedule: an arbitrary list of thread ids
folded over the step function.  Pointer identity of `*progressState` values
(which is what `CompareAndSwap` compares) is modelled by tagging every
published state with a fresh version number: every successful CAS installs a
brand-new allocation, so tag equality coincides with pointer equality. -/

structure SharedState where
  store : Option (Nat × progressState)
  slots : List Int
  nextVer : Nat
  /-- ghost instrumentation: number of successful CAS publications -/
  pubCount : Nat
deriving Repr, DecidableEq

/-- The program counter of one thread inside `Inc` (between shared accesses). -/
inductive TPhase where
  /-- about to start a loop iteration of `getOrCreateCounter` (or idle/done) -/
  | start
  /-- performed `state := p.state.Load()` -/
  | loaded (obs : Option (Nat × progressState))
  /-- found no counter in `obs`, ran `newCounter := new(int64)` -/
  | allocated (obs : Option (Nat × progressState)) (newCounter : SlotId)
  /-- the call `getOrCreateCounter` returned the cell `c`; the `atomic.AddInt64` is pending -/
  | gotSlot (c : SlotId)
deriving Repr, DecidableEq

structure Thread where
  /-- number of `Inc(key, 1)` calls this thread still has to complete -/
  remaining : Nat
  phase : TPhase
  /-- ghost instrumentation: every cell this thread obtained from `getOrCreateCounter` -/
  acquired : List SlotId
deriving Repr, DecidableEq

structure Config where
  shared : SharedState
  threads : List Thread
deriving Repr, DecidableEq

/-- Construction of the new `progressState` in the unhappy path of
`getOrCreateCounter` (clone the observed state and add the new key), exactly
as in the sequential embedding. -/
def buildNewState (obs : Option (Nat × progressState)) (key : String)
    (newCounter : SlotId) : progressState :=
  match obs with
  | some (_, state) =>
    { counters := state.counters ++ [(key, newCounter)]
      sortedKeys := cloneSortedSliceAndInsert state.sortedKeys key }
  | none => { counters := [(key, newCounter)], sortedKeys := [key] }

/-- One shared-memory access of a thread running `Inc(key, 1)` in a loop. -/
def stepThread (key : String) (sh : SharedState) (t : Thread) : SharedState × Thread :=
  match t.phase with
  | .start =>
    if t.remaining = 0 then (sh, t)
    else (sh, { t with phase := .loaded sh.store })
  | .loaded obs =>
    match obs with
    | some (_, state) =>
      match lookupKey state.counters key with
      | some c => (sh, { t with phase := .gotSlot c, acquired := t.acquired ++ [c] })
      | none =>
        ({ sh with slots := sh.slots ++ [0] },
         { t with phase := .allocated obs sh.slots.length })
    | none =>
      ({ sh with slots := sh.slots ++ [0] },
       { t with phase := .allocated none sh.slots.length })
  | .allocated obs newCounter =>
    if sh.store.map Prod.fst = obs.map Prod.fst then
      ({ sh with store := some (sh.nextVer, buildNewState obs key newCounter),
                 nextVer := sh.nextVer + 1, pubCount := sh.pubCount + 1 },
       { t with phase := .gotSlot newCounter, acquired := t.acquired ++ [newCounter] })
    else (sh, { t with phase := .start })
  | .gotSlot c =>
    ({ sh with slots := sh.slots.set c (wrap64 (sh.slots.getD c 0 + 1)) },
     { t with phase := .start, remaining := t.remaining - 1 })

/-- Scheduler: let thread `tid` take its next step (ids out of range no-op). -/
def step (key : String) (cfg : Config) (tid : Nat) : Config :=
  match cfg.threads[tid]? with
  | none => cfg
  | some t =>
    let r := stepThread key cfg.shared t
    { shared := r.1, threads := cfg.threads.set tid r.2 }

/-- Run an arbitrary schedule from a configuration. -/
def run (key : String) (cfg : Config) (sched : List Nat) : Config :=
  sched.foldl (step key) cfg

/-- Initial configuration: `N` threads, each with `M` pending `Inc(key, 1)` calls, over a zero store. -/
def initConfig (N M : Nat) : Config :=
  { shared := { store := none, slots := [], nextVer := 0, pubCount := 0 },
    threads := List.replicate N { remaining := M, phase := .start, acquired := [] } }

/-- Read the shared state back as a `Store` (what `Get` operates on). -/
def sharedStore (sh : SharedState) : Store :=
  { state := sh.store.map Prod.snd, slots := sh.slots }

/-- Total number of completed `Inc` calls, summed over all threads. -/
def doneCount (M : Nat) (ts : List Thread) : Int :=
  (ts.map fun t => (M : Int) - t.remaining).sum


/-- Per-thread invariant while no state has ever been published (the store
still holds the nil pointer): nothing is completed, nothing acquired, and any
observed pointer is nil. -/
def ThreadOKNone (M slotsLen : Nat) (t : Thread) : Prop :=
  t.remaining = M ∧ t.acquired = [] ∧ (t.phase ≠ .start → 1 ≤ t.remaining) ∧
  (match t.phase with
   | .start => True
   | .loaded obs => obs = none
   | .allocated obs nc => obs = none ∧ nc < slotsLen
   | .gotSlot _ => False)

/-- Per-thread invariant once a state (with the single key mapped to cell
`c`) has been published: every acquired cell is `c`, any pending add targets
`c`, and any observed pointer is nil or the current one. -/
def ThreadOKSome (M slotsLen ver : Nat) (ps : progressState) (c : SlotId)
    (t : Thread) : Prop :=
  t.remaining ≤ M ∧ (∀ x ∈ t.acquired, x = c) ∧ (t.phase ≠ .start → 1 ≤ t.remaining) ∧
  (match t.phase with
   | .start => True
   | .loaded obs => obs = none ∨ obs = some (ver, ps)
   | .allocated obs nc => obs = none ∧ nc < slotsLen
   | .gotSlot cg => cg = c)

/-- The global invariant of the concurrent machine for the single-key
scenario: either nothing has been published yet (all cells are zero, no
thread has completed anything), or exactly one CAS has published a singleton
state mapping the key to a cell `c` whose value is the wrapped count of
completed `Inc` calls, and every thread works with `c`. -/
def CInv (key : String) (M : Nat) (cfg : Config) : Prop :=
  match cfg.shared.store with
  | none =>
    cfg.shared.pubCount = 0 ∧
    (∀ v ∈ cfg.shared.slots, v = 0) ∧
    (∀ t ∈ cfg.threads, ThreadOKNone M cfg.shared.slots.length t)
  | some vps =>
    cfg.shared.pubCount = 1 ∧
    ∃ c, vps.2.counters = [(key, c)] ∧ vps.2.sortedKeys = [key] ∧
      c < cfg.shared.slots.length ∧
      cfg.shared.slots.getD c 0 = wrap64 (doneCount M cfg.threads) ∧
      (∀ t ∈ cfg.threads, ThreadOKSome M cfg.shared.slots.length vps.1 vps.2 c t)

theorem threadOKNone_mono {M L1 L2 : Nat} {t : Thread} (h : ThreadOKNone M L1 t)
    (hL : L1 ≤ L2) : ThreadOKNone M L2 t := by
  obtain ⟨h1, h2, h3, h4⟩ := h
  refine ⟨h1, h2, h3, ?_⟩
  cases hp : t.phase with
  | allocated obs nc =>
    rw [hp] at h4
    exact ⟨h4.1, lt_of_lt_of_le h4.2 hL⟩
  | start => trivial
  | loaded obs =>
    rw [hp] at h4
    exact h4
  | gotSlot c =>
    rw [hp] at h4
    exact h4

theorem threadOKSome_mono {M L1 L2 ver : Nat} {ps : progressState} {c : SlotId}
    {t : Thread} (h : ThreadOKSome M L1 ver ps c t) (hL : L1 ≤ L2) :
    ThreadOKSome M L2 ver ps c t := by
  obtain ⟨h1, h2, h3, h4⟩ := h
  refine ⟨h1, h2, h3, ?_⟩
  cases hp : t.phase with
  | allocated obs nc =>
    rw [hp] at h4
    exact ⟨h4.1, lt_of_lt_of_le h4.2 hL⟩
  | start => trivial
  | loaded obs =>
    rw [hp] at h4
    exact h4
  | gotSlot cg =>
    rw [hp] at h4
    exact h4

theorem threadOKNone_toSome {M L ver : Nat} {ps : progressState} {c : SlotId}
    {t : Thread} (h : ThreadOKNone M L t) : ThreadOKSome M L ver ps c t := by
  obtain ⟨h1, h2, h3, h4⟩ := h
  refine ⟨le_of_eq h1, by simp [h2], h3, ?_⟩
  cases hp : t.phase with
  | start => trivial
  | loaded obs =>
    rw [hp] at h4
    exact Or.inl h4
  | allocated obs nc =>
    rw [hp] at h4
    exact h4
  | gotSlot cg =>
    rw [hp] at h4
    exact h4.elim

theorem map_sum_set (f : Thread → Int) : ∀ (ts : List Thread) (i : Nat)
    (hi : i < ts.length) (x : Thread),
    ((ts.set i x).map f).sum = (ts.map f).sum - f (ts.get ⟨i, hi⟩) + f x := by
  intro ts
  induction ts with
  | nil =>
    intro i hi
    simp at hi
  | cons t rest ih =>
    intro i hi x
    cases i with
    | zero =>
      simp [List.set]
      ring
    | succ n =>
      have hn : n < rest.length := by simpa using hi
      simp only [List.set, List.map_cons, List.sum_cons, ih n hn x, List.get_cons_succ]
      ring

theorem doneCount_set {M : Nat} {ts : List Thread} {i : Nat} (hi : i < ts.length)
    (x : Thread) :
    doneCount M (ts.set i x) = doneCount M ts
      - ((M : Int) - (ts.get ⟨i, hi⟩).remaining) + ((M : Int) - x.remaining) :=
  map_sum_set _ ts i hi x

theorem doneCount_all_M {M : Nat} {ts : List Thread}
    (h : ∀ t ∈ ts, t.remaining = M) : doneCount M ts = 0 := by
  induction ts with
  | nil => rfl
  | cons t rest ih =>
    have ht := h t (List.mem_cons_self t rest)
    have := ih (fun u hu => h u (List.mem_cons_of_mem t hu))
    simp only [doneCount, List.map_cons, List.sum_cons] at this ⊢
    rw [ht, this]
    ring

theorem doneCount_all_zero {M : Nat} {ts : List Thread}
    (h : ∀ t ∈ ts, t.remaining = 0) : doneCount M ts = ts.length * M := by
  induction ts with
  | nil => simp [doneCount]
  | cons t rest ih =>
    have ht := h t (List.mem_cons_self t rest)
    have := ih (fun u hu => h u (List.mem_cons_of_mem t hu))
    simp only [doneCount, List.map_cons, List.sum_cons, List.length_cons] at this ⊢
    rw [ht, this]
    push_cast
    ring

theorem getD_zero_of_all_zero {l : List Int} (h : ∀ v ∈ l, v = 0) (n : Nat) :
    l.getD n 0 = 0 := by
  by_cases hn : n < l.length
  · rw [List.getD_eq_getElem _ _ hn]
    exact h _ (List.getElem_mem hn)
  · rw [List.getD_eq_default _ _ (by omega)]


theorem CInv_none_intro {key : String} {M : Nat} {cfg : Config}
    (hstore : cfg.shared.store = none)
    (h1 : cfg.shared.pubCount = 0) (h2 : ∀ v ∈ cfg.shared.slots, v = 0)
    (h3 : ∀ t ∈ cfg.threads, ThreadOKNone M cfg.shared.slots.length t) :
    CInv key M cfg := by
  unfold CInv
  rw [hstore]
  exact ⟨h1, h2, h3⟩

theorem CInv_none_elim {key : String} {M : Nat} {cfg : Config}
    (hstore : cfg.shared.store = none) (h : CInv key M cfg) :
    cfg.shared.pubCount = 0 ∧ (∀ v ∈ cfg.shared.slots, v = 0) ∧
    (∀ t ∈ cfg.threads, ThreadOKNone M cfg.shared.slots.length t) := by
  unfold CInv at h
  rw [hstore] at h
  exact h

theorem CInv_some_intro {key : String} {M : Nat} {cfg : Config}
    {vps : Nat × progressState} (hstore : cfg.shared.store = some vps)
    (h1 : cfg.shared.pubCount = 1)
    (h2 : ∃ c, vps.2.counters = [(key, c)] ∧ vps.2.sortedKeys = [key] ∧
      c < cfg.shared.slots.length ∧
      cfg.shared.slots.getD c 0 = wrap64 (doneCount M cfg.threads) ∧
      (∀ t ∈ cfg.threads, ThreadOKSome M cfg.shared.slots.length vps.1 vps.2 c t)) :
    CInv key M cfg := by
  unfold CInv
  rw [hstore]
  exact ⟨h1, h2⟩

theorem CInv_some_elim {key : String} {M : Nat} {cfg : Config}
    {vps : Nat × progressState} (hstore : cfg.shared.store = some vps)
    (h : CInv key M cfg) :
    cfg.shared.pubCount = 1 ∧
    ∃ c, vps.2.counters = [(key, c)] ∧ vps.2.sortedKeys = [key] ∧
      c < cfg.shared.slots.length ∧
      cfg.shared.slots.getD c 0 = wrap64 (doneCount M cfg.threads) ∧
      (∀ t ∈ cfg.threads, ThreadOKSome M cfg.shared.slots.length vps.1 vps.2 c t) := by
  unfold CInv at h
  rw [hstore] at h
  exact h

/-- Every scheduler step preserves the machine invariant. -/
theorem step_preserves_CInv (key : String) (M : Nat) (cfg : Config) (tid : Nat)
    (h : CInv key M cfg) : CInv key M (step key cfg tid) := by
  rcases hth : cfg.threads[tid]? with _ | t
  · simpa only [step, hth] using h
  obtain ⟨htlt, htval⟩ := List.getElem?_eq_some.mp hth
  have hmem : t ∈ cfg.threads := htval ▸ List.getElem_mem htlt
  have hget : cfg.threads.get ⟨tid, htlt⟩ = t := htval
  have hstep : step key cfg tid
      = { shared := (stepThread key cfg.shared t).1,
          threads := cfg.threads.set tid (stepThread key cfg.shared t).2 } := by
    simp only [step, hth]
  rw [hstep]
  rcases hstore : cfg.shared.store with _ | vps
  · -- no state published yet
    obtain ⟨hpub, hzero, hts⟩ := CInv_none_elim hstore h
    obtain ⟨ht1, ht2, ht3, ht4⟩ := hts t hmem
    cases hph : t.phase with
    | start =>
      by_cases hrem : t.remaining = 0
      · have hst : stepThread key cfg.shared t = (cfg.shared, t) := by
          simp [stepThread, hph, hrem]
        rw [hst]
        refine CInv_none_intro hstore hpub hzero ?_
        intro u hu
        rcases List.mem_or_eq_of_mem_set hu with hu | hequ
        · exact hts u hu
        · rw [hequ]
          exact hts t hmem
      · have hst : stepThread key cfg.shared t
            = (cfg.shared, { t with phase := .loaded cfg.shared.store }) := by
          simp [stepThread, hph, hrem]
        rw [hst]
        refine CInv_none_intro hstore hpub hzero ?_
        intro u hu
        rcases List.mem_or_eq_of_mem_set hu with hu | rfl
        · exact hts u hu
        · exact ⟨ht1, ht2, fun _ => by show 1 ≤ t.remaining; omega, hstore⟩
    | loaded obs =>
      rw [hph] at ht4
      subst ht4
      have hne : t.phase ≠ .start := by rw [hph]; simp
      have hst : stepThread key cfg.shared t
          = ({ cfg.shared with slots := cfg.shared.slots ++ [0] },
             { t with phase := .allocated none cfg.shared.slots.length }) := by
        simp [stepThread, hph]
      rw [hst]
      refine CInv_none_intro hstore hpub ?_ ?_
      · intro v hv
        rcases List.mem_append.mp hv with hv | hv
        · exact hzero v hv
        · simpa using hv
      · intro u hu
        have hlen : cfg.shared.slots.length ≤ (cfg.shared.slots ++ [0]).length := by
          simp
        rcases List.mem_or_eq_of_mem_set hu with hu | rfl
        · exact threadOKNone_mono (hts u hu) hlen
        · exact ⟨ht1, ht2, fun _ => ht3 hne, rfl, by simp⟩
    | allocated obs nc =>
      rw [hph] at ht4
      obtain ⟨hobs, hnc⟩ := ht4
      subst hobs
      have hne : t.phase ≠ .start := by rw [hph]; simp
      have hst : stepThread key cfg.shared t
          = ({ cfg.shared with
                store := some (cfg.shared.nextVer, buildNewState none key nc),
                nextVer := cfg.shared.nextVer + 1, pubCount := cfg.shared.pubCount + 1 },
             { t with phase := .gotSlot nc, acquired := t.acquired ++ [nc] }) := by
        simp [stepThread, hph, hstore]
      rw [hst]
      refine CInv_some_intro rfl
        (by simp [hpub]) ?_
      refine ⟨nc, rfl, rfl, hnc, ?_, ?_⟩
      · have hdc : doneCount M (cfg.threads.set tid
            { t with phase := .gotSlot nc, acquired := t.acquired ++ [nc] })
            = doneCount M cfg.threads := by
          rw [doneCount_set htlt, hget]
          simp
        rw [hdc, doneCount_all_M (fun u hu => (hts u hu).1)]
        rw [getD_zero_of_all_zero hzero nc]
        decide
      · intro u hu
        rcases List.mem_or_eq_of_mem_set hu with hu | rfl
        · exact threadOKNone_toSome (hts u hu)
        · refine ⟨le_of_eq ht1, ?_, fun _ => ht3 hne, rfl⟩
          intro x hx
          rw [ht2] at hx
          simpa using hx
    | gotSlot c0 =>
      rw [hph] at ht4
      exact ht4.elim
  · -- state already published
    obtain ⟨hpub, c, hcnt, hsk, hclen, hval, hts⟩ := CInv_some_elim hstore h
    obtain ⟨ht1, ht2, ht3, ht4⟩ := hts t hmem
    cases hph : t.phase with
    | start =>
      by_cases hrem : t.remaining = 0
      · have hst : stepThread key cfg.shared t = (cfg.shared, t) := by
          simp [stepThread, hph, hrem]
        rw [hst]
        refine CInv_some_intro hstore hpub ⟨c, hcnt, hsk, hclen, ?_, ?_⟩
        · have hdc : doneCount M (cfg.threads.set tid t) = doneCount M cfg.threads := by
            rw [doneCount_set htlt, hget]
            ring
          rw [hdc]
          exact hval
        · intro u hu
          rcases List.mem_or_eq_of_mem_set hu with hu | hequ
          · exact hts u hu
          · rw [hequ]
            exact hts t hmem
      · have hst : stepThread key cfg.shared t
            = (cfg.shared, { t with phase := .loaded cfg.shared.store }) := by
          simp [stepThread, hph, hrem]
        rw [hst]
        refine CInv_some_intro hstore hpub ⟨c, hcnt, hsk, hclen, ?_, ?_⟩
        · have hdc : doneCount M (cfg.threads.set tid
              { t with phase := .loaded cfg.shared.store }) = doneCount M cfg.threads := by
            rw [doneCount_set htlt, hget]
            simp
          rw [hdc]
          exact hval
        · intro u hu
          rcases List.mem_or_eq_of_mem_set hu with hu | rfl
          · exact hts u hu
          · exact ⟨ht1, ht2, fun _ => by show 1 ≤ t.remaining; omega,
              Or.inr (by rw [hstore])⟩
    | loaded obs =>
      rw [hph] at ht4
      have hne : t.phase ≠ .start := by rw [hph]; simp
      rcases ht4 with hobs | hobs
      · -- stale nil observation: allocate and go to the CAS (which will fail)
        subst hobs
        have hst : stepThread key cfg.shared t
            = ({ cfg.shared with slots := cfg.shared.slots ++ [0] },
               { t with phase := .allocated none cfg.shared.slots.length }) := by
          simp [stepThread, hph]
        rw [hst]
        refine CInv_some_intro hstore hpub ⟨c, hcnt, hsk, ?_, ?_, ?_⟩
        · show c < (cfg.shared.slots ++ [0]).length
          simp only [List.length_append, List.length_singleton]
          exact Nat.lt_succ_of_lt hclen
        · have hdc : doneCount M (cfg.threads.set tid
              { t with phase := .allocated none cfg.shared.slots.length })
              = doneCount M cfg.threads := by
            rw [doneCount_set htlt, hget]
            simp
          rw [hdc, getD_append_left hclen]
          exact hval
        · intro u hu
          have hlen : cfg.shared.slots.length ≤ (cfg.shared.slots ++ [0]).length := by
            simp
          rcases List.mem_or_eq_of_mem_set hu with hu | rfl
          · exact threadOKSome_mono (hts u hu) hlen
          · exact ⟨ht1, ht2, fun _ => ht3 hne, rfl, by simp⟩
      · -- fresh observation: the fast path finds the key
        subst hobs
        have hst : stepThread key cfg.shared t
            = (cfg.shared, { t with phase := .gotSlot c, acquired := t.acquired ++ [c] }) := by
          simp [stepThread, hph, hcnt, lookupKey]
        rw [hst]
        refine CInv_some_intro hstore hpub ⟨c, hcnt, hsk, hclen, ?_, ?_⟩
        · have hdc : doneCount M (cfg.threads.set tid
              { t with phase := .gotSlot c, acquired := t.acquired ++ [c] })
              = doneCount M cfg.threads := by
            rw [doneCount_set htlt, hget]
            simp
          rw [hdc]
          exact hval
        · intro u hu
          rcases List.mem_or_eq_of_mem_set hu with hu | rfl
          · exact hts u hu
          · refine ⟨ht1, ?_, fun _ => ht3 hne, rfl⟩
            intro x hx
            rcases List.mem_append.mp hx with hx | hx
            · exact ht2 x hx
            · simpa using hx
    | allocated obs nc =>
      rw [hph] at ht4
      obtain ⟨hobs, hnc⟩ := ht4
      subst hobs
      have hst : stepThread key cfg.shared t
          = (cfg.shared, { t with phase := .start }) := by
        simp [stepThread, hph, hstore]
      rw [hst]
      refine CInv_some_intro hstore hpub ⟨c, hcnt, hsk, hclen, ?_, ?_⟩
      · have hdc : doneCount M (cfg.threads.set tid { t with phase := .start })
            = doneCount M cfg.threads := by
          rw [doneCount_set htlt, hget]
          simp
        rw [hdc]
        exact hval
      · intro u hu
        rcases List.mem_or_eq_of_mem_set hu with hu | rfl
        · exact hts u hu
        · exact ⟨ht1, ht2, fun hcon => absurd rfl hcon, trivial⟩
    | gotSlot c0 =>
      rw [hph] at ht4
      subst ht4
      have hne : t.phase ≠ .start := by rw [hph]; simp
      have hr1 : 1 ≤ t.remaining := ht3 hne
      have hst : stepThread key cfg.shared t
          = ({ cfg.shared with
                slots := cfg.shared.slots.set c0 (wrap64 (cfg.shared.slots.getD c0 0 + 1)) },
             { t with phase := .start, remaining := t.remaining - 1 }) := by
        simp [stepThread, hph]
      rw [hst]
      refine CInv_some_intro hstore hpub ⟨c0, hcnt, hsk, ?_, ?_, ?_⟩
      · simpa using hclen
      · have hcast : ((t.remaining - 1 : Nat) : Int) = (t.remaining : Int) - 1 := by
          omega
        have hdc : doneCount M (cfg.threads.set tid
            { t with phase := .start, remaining := t.remaining - 1 })
            = doneCount M cfg.threads + 1 := by
          rw [doneCount_set htlt, hget]
          simp [hcast]
          ring
        rw [hdc, getD_set_self hclen, hval, wrap64_add_left]
      · intro u hu
        have hlen : cfg.shared.slots.length
            ≤ (cfg.shared.slots.set c0 (wrap64 (cfg.shared.slots.getD c0 0 + 1))).length := by
          simp
        rcases List.mem_or_eq_of_mem_set hu with hu | rfl
        · exact threadOKSome_mono (hts u hu) hlen
        · exact ⟨by show t.remaining - 1 ≤ M; omega, ht2,
            fun hcon => absurd rfl hcon, trivial⟩


theorem run_preserves_CInv (key : String) (M : Nat) (sched : List Nat) :
    ∀ cfg, CInv key M cfg → CInv key M (run key cfg sched) := by
  induction sched with
  | nil => exact fun cfg h => h
  | cons tid rest ih =>
    intro cfg h
    exact ih (step key cfg tid) (step_preserves_CInv key M cfg tid h)

theorem initConfig_CInv (key : String) (N M : Nat) : CInv key M (initConfig N M) := by
  refine CInv_none_intro rfl rfl ?_ ?_
  · intro v hv
    simp [initConfig] at hv
  · intro t ht
    have heq := List.eq_of_mem_replicate ht
    subst heq
    exact ⟨rfl, rfl, fun hcon => absurd rfl hcon, trivial⟩

theorem step_threads_length (key : String) (cfg : Config) (tid : Nat) :
    (step key cfg tid).threads.length = cfg.threads.length := by
  rcases hth : cfg.threads[tid]? with _ | t
  · simp [step, hth]
  · simp [step, hth]

theorem run_threads_length (key : String) (sched : List Nat) :
    ∀ cfg, (run key cfg sched).threads.length = cfg.threads.length := by
  induction sched with
  | nil => exact fun _ => rfl
  | cons tid rest ih =>
    intro cfg
    rw [show run key cfg (tid :: rest) = run key (step key cfg tid) rest from rfl,
      ih, step_threads_length]

/-- C1: in the interleaved machine — `N` threads each running `Inc(key, 1)`
exactly `M` times against the lock-free store, under an arbitrary schedule —
whenever a schedule completes all threads, (i) no increment is lost: the final
`Get key` is the 64-bit image of `N * M`, and exactly `N * M` whenever that
product fits in an `int64`; (ii) for `N, M ≥ 1` exactly one CAS ever publishes
a state holding the key; and (iii) every cell any thread ever obtained from
`getOrCreateCounter` (and applied its atomic adds to) is the single cell the
winning CAS published for the key. -/
theorem claim_C1_concurrent_inc (N M : Nat) (key : String) (sched : List Nat)
    (hdone : ∀ t ∈ (run key (initConfig N M) sched).threads,
      t.phase = TPhase.start ∧ t.remaining = 0) :
    Get (sharedStore (run key (initConfig N M) sched).shared) key
      = wrap64 ((N * M : Nat) : Int) ∧
    ((N * M : Nat) < 2 ^ 63 →
      Get (sharedStore (run key (initConfig N M) sched).shared) key = (N * M : Nat)) ∧
    (1 ≤ N → 1 ≤ M → (run key (initConfig N M) sched).shared.pubCount = 1) ∧
    (∀ t ∈ (run key (initConfig N M) sched).threads, ∀ x ∈ t.acquired,
      lookupKey (stateCounters (sharedStore (run key (initConfig N M) sched).shared)) key
        = some x) := by
  have hInv := run_preserves_CInv key M sched (initConfig N M) (initConfig_CInv key N M)
  have hlen : (run key (initConfig N M) sched).threads.length = N := by
    rw [run_threads_length]
    simp [initConfig]
  rcases hstore : (run key (initConfig N M) sched).shared.store with _ | vps
  · obtain ⟨hpub, hzero, hts⟩ := CInv_none_elim hstore hInv
    have hNM : N * M = 0 := by
      rcases Nat.eq_zero_or_pos N with hN | hN
      · rw [hN, Nat.zero_mul]
      · have hpos : 0 < (run key (initConfig N M) sched).threads.length := by omega
        obtain ⟨t, ht⟩ := List.exists_mem_of_length_pos hpos
        have hM : t.remaining = M := (hts t ht).1
        have h0 : t.remaining = 0 := (hdone t ht).2
        have hM0 : M = 0 := by omega
        rw [hM0, Nat.mul_zero]
    have hG : Get (sharedStore (run key (initConfig N M) sched).shared) key = 0 := by
      rw [Get_eq]
      have hsc : stateCounters (sharedStore (run key (initConfig N M) sched).shared) = [] := by
        simp [sharedStore, stateCounters, hstore]
      rw [hsc]
      rfl
    have hw : wrap64 ((N * M : Nat) : Int) = 0 := by
      rw [hNM]
      decide
    refine ⟨by rw [hG, hw], fun _ => by rw [hG, hNM]; rfl, ?_, ?_⟩
    · intro hN hM
      have hpos : 0 < (run key (initConfig N M) sched).threads.length := by omega
      obtain ⟨t, ht⟩ := List.exists_mem_of_length_pos hpos
      have hMt : t.remaining = M := (hts t ht).1
      have h0 : t.remaining = 0 := (hdone t ht).2
      omega
    · intro t ht x hx
      rw [(hts t ht).2.1] at hx
      simp at hx
  · obtain ⟨hpub, c, hcnt, hsk, hclen, hval, hts⟩ := CInv_some_elim hstore hInv
    have hdc : doneCount M (run key (initConfig N M) sched).threads
        = (run key (initConfig N M) sched).threads.length * M :=
      doneCount_all_zero (fun t ht => (hdone t ht).2)
    have hsc : stateCounters (sharedStore (run key (initConfig N M) sched).shared)
        = [(key, c)] := by
      simp [sharedStore, stateCounters, hstore, hcnt]
    have hlk : lookupKey (stateCounters (sharedStore (run key (initConfig N M) sched).shared))
        key = some c := by
      rw [hsc]
      simp [lookupKey]
    have hG : Get (sharedStore (run key (initConfig N M) sched).shared) key
        = wrap64 ((N * M : Nat) : Int) := by
      rw [Get_of_lookup hlk]
      show (run key (initConfig N M) sched).shared.slots.getD c 0 = _
      rw [hval, hdc, hlen, Nat.cast_mul]
    refine ⟨hG, ?_, fun _ _ => hpub, ?_⟩
    · intro hrange
      rw [hG]
      refine wrap64_eq_self (le_trans (by norm_num) (Int.natCast_nonneg _)) ?_
      exact_mod_cast hrange
    · intro t ht x hx
      rw [(hts t ht).2.1 x hx]
      exact hlk

theorem claim_C1_concurrent_inc_witness :
    Get (sharedStore (run "k" (initConfig 2 1) [0, 0, 1, 1, 1, 1, 0, 0, 0, 0]).shared) "k"
      = wrap64 ((2 * 1 : Nat) : Int) ∧
    ((2 * 1 : Nat) < 2 ^ 63 →
      Get (sharedStore (run "k" (initConfig 2 1) [0, 0, 1, 1, 1, 1, 0, 0, 0, 0]).shared) "k"
        = (2 * 1 : Nat)) ∧
    (1 ≤ 2 → 1 ≤ 1 →
      (run "k" (initConfig 2 1) [0, 0, 1, 1, 1, 1, 0, 0, 0, 0]).shared.pubCount = 1) ∧
    (∀ t ∈ (run "k" (initConfig 2 1) [0, 0, 1, 1, 1, 1, 0, 0, 0, 0]).threads,
      ∀ x ∈ t.acquired,
      lookupKey (stateCounters (sharedStore
        (run "k" (initConfig 2 1) [0, 0, 1, 1, 1, 1, 0, 0, 0, 0]).shared)) "k" = some x) :=
  claim_C1_concurrent_inc 2 1 "k" [0, 0, 1, 1, 1, 1, 0, 0, 0, 0] (by decide)

end Dspc
